import Mathlib

/-!
Verification of the DKIM domain-ownership engine.

This file gives a shallow embedding, in Lean 4, of the header-level DKIM
verification engine of the repository:

* `Dkim` embeds `packages/nextjs/services/server/dkim.ts`
  (header parsing, DKIM tag parsing, relaxed header canonicalization,
  rightmost-unused signed-header selection, the `b=`-blanked final
  DKIM-Signature line, and the DNS key resolver modelled on its pure part).
* `Route` embeds the binding checks of the verification POST route
  (domain / nonce / signed-subject checks against a session).
* `EmailJs` embeds the standalone email parser script
  (its `parseHeaders`, and `chooseDKIMSignature` selection policy).

JavaScript string primitives (`trim`, `toLowerCase`, `split`, `includes`,
and the concrete regex replacements used by the source) are modelled as
executable functions on `List Char` so that every definition evaluates by
`decide`/`rfl`.
-/

/-- JS `s.toLowerCase()` (ASCII, as used by the source on header names/tags). -/
def jsLower (s : String) : String := ⟨s.data.map Char.toLower⟩

/-- JS `s.trim()`: strip leading and trailing whitespace. -/
def jsTrim (s : String) : String :=
  ⟨(((s.data.dropWhile Char.isWhitespace).reverse).dropWhile Char.isWhitespace).reverse⟩

/-- JS `s.slice(0, n)` for `0 ≤ n`. -/
def takeN (s : String) (n : Nat) : String := ⟨s.data.take n⟩

/-- JS `s.slice(n)` for `0 ≤ n`. -/
def dropN (s : String) (n : Nat) : String := ⟨s.data.drop n⟩

/-- JS `s.startsWith(p)`. -/
def startsWithL (s p : String) : Bool := p.data.isPrefixOf s.data

/-- Scan for a contiguous occurrence of `needle`. -/
def hasSubList (needle : List Char) : List Char → Bool
  | [] => needle.isEmpty
  | c :: rest => needle.isPrefixOf (c :: rest) || hasSubList needle rest

/-- JS `hay.includes(sub)`: contiguous substring containment. -/
def jsIncludes (hay sub : String) : Bool := hasSubList sub.data hay.data

/-- Splitter for JS `s.split(sep)` with a one-character separator. -/
def splitOnCharGo (sep : Char) (acc : List Char) : List Char → List (List Char)
  | [] => [acc.reverse]
  | c :: rest =>
    if c == sep then acc.reverse :: splitOnCharGo sep [] rest
    else splitOnCharGo sep (c :: acc) rest

/-- JS `s.split(sep)` for a one-character separator (used for `;` and `:`). -/
def splitOnChar (sep : Char) (s : String) : List String :=
  (splitOnCharGo sep [] s.data).map (fun l => (⟨l⟩ : String))

/-- Splitter for JS `s.split(/\r?\n/)`: break at each `'\n'`, stripping one
`'\r'` just before it (kept in reversed form at the head of `acc`). -/
def splitLinesAnyGo (acc : List Char) : List Char → List (List Char)
  | [] => [acc.reverse]
  | c :: rest =>
    if c == '\n' then
      (match acc with
       | '\r' :: acc2 => acc2.reverse
       | _ => acc.reverse) :: splitLinesAnyGo [] rest
    else splitLinesAnyGo (c :: acc) rest

/-- JS `s.split(/\r?\n/)`. -/
def splitLinesAny (s : String) : List String :=
  (splitLinesAnyGo [] s.data).map (fun l => (⟨l⟩ : String))

/-- Splitter for JS `s.split(/\r\n/)`: break only at `'\n'` directly preceded
by `'\r'`. -/
def splitCRLFGo (acc : List Char) : List Char → List (List Char)
  | [] => [acc.reverse]
  | c :: rest =>
    if c == '\n' then
      match acc with
      | '\r' :: acc2 => acc2.reverse :: splitCRLFGo [] rest
      | _ => splitCRLFGo (c :: acc) rest
    else splitCRLFGo (c :: acc) rest

/-- JS `s.split(/\r\n/)`. -/
def splitCRLF (s : String) : List String :=
  (splitCRLFGo [] s.data).map (fun l => (⟨l⟩ : String))

/-- The character class `[ \t]` of the source's regexes. -/
def isWsp (c : Char) : Bool := c == ' ' || c == '\t'

/-- The JS word-character class `\w` = `[A-Za-z0-9_]` (for `\b` boundaries). -/
def isWordChar (c : Char) : Bool := c.isAlphanum || c == '_'

/-- Scanner for JS `s.replace(/[ \t]+/g, " ")`: each maximal `[ \t]` run
becomes one space.  The flag records whether we are inside such a run. -/
def collapseWSGo (inRun : Bool) : List Char → List Char
  | [] => []
  | c :: rest =>
    if isWsp c then
      if inRun then collapseWSGo true rest else ' ' :: collapseWSGo true rest
    else c :: collapseWSGo false rest

/-- JS `s.replace(/[ \t]+/g, " ")`. -/
def collapseWS (s : String) : String := ⟨collapseWSGo false s.data⟩

/-- Does `/\r?\n[ \t]+/` match at the position of character `c` (with the
rest of the input after it)?  If so, return the input remaining after the
greedy `[ \t]+`. -/
def foldMatchAt : Char → List Char → Option (List Char)
  | '\n', rest =>
    match rest with
    | c2 :: _ => if isWsp c2 then some (rest.dropWhile isWsp) else none
    | [] => none
  | '\r', rest =>
    match rest with
    | '\n' :: c2 :: r2 => if isWsp c2 then some (r2.dropWhile isWsp) else none
    | _ => none
  | _, _ => none

/-- First match of `/\r?\n[ \t]+/`: returns the text before the match and the
text after it, or `none` when the pattern does not occur. -/
def splitFold : List Char → Option (List Char × List Char)
  | [] => none
  | c :: rest =>
    match foldMatchAt c rest with
    | some suf => some ([], suf)
    | none => (splitFold rest).map (fun pr => (c :: pr.1, pr.2))

/-- Iterate `splitFold`, replacing each match with one space.  The fuel is the
input length, an upper bound on the number of matches (each consumes at least
two characters), so the global replacement always completes. -/
def unfoldN : Nat → List Char → List Char
  | 0, l => l
  | fuel + 1, l =>
    match splitFold l with
    | none => l
    | some (pre, suf) => pre ++ ' ' :: unfoldN fuel suf

/-- JS `s.replace(/\r?\n[ \t]+/g, " ")` (header unfolding). -/
def unfoldWS (s : String) : String := ⟨unfoldN s.data.length s.data⟩

namespace Dkim

/-- A parsed header of `dkim.ts`: `{ name, value }`. -/
structure Header where
  name : String
  value : String
deriving DecidableEq, Repr

/-- Default header used to totalize JS array indexing (always in bounds in
the source). -/
def dh : Header := ⟨"", ""⟩

/-- Lower-cased name of the header at position `i`. -/
def nameAt (list : List Header) (i : Nat) : String := jsLower ((list.getD i dh).name)

/-- `indicesByName.get(n)` of `selectSignedHeaders`: the positions, in receipt
order, of the headers whose lower-cased name is `n`. -/
def occIndices (list : List Header) (n : String) : List Nat :=
  (List.range list.length).filter (fun i => nameAt list i == n)

/-- The loop of `selectSignedHeaders` (dkim.ts): for each `h=` name, take the
occurrence at the per-name pointer (initially the last index) and decrement
the pointer. -/
def selectAux (list : List Header) : List String → (String → Int) → List Header
  | [], _ => []
  | nRaw :: rest, ptr =>
    let n := jsLower nRaw
    let arr := occIndices list n
    if arr.isEmpty then selectAux list rest ptr
    else
      let p := ptr n
      if p < 0 then selectAux list rest ptr
      else
        let idx := arr.getD p.toNat 0
        list.getD idx dh :: selectAux list rest (fun m => if m = n then p - 1 else ptr m)

/-- `selectSignedHeaders(list, hList)` of dkim.ts. -/
def selectSignedHeaders (list : List Header) (hList : List String) : List Header :=
  selectAux list hList (fun n => ((occIndices list n).length : Int) - 1)

/-- Spec reading of the selection rule (and the shape of the email parser's
`findRightmostUnused`): the rightmost header occurrence with the given
(lower-cased) name that is not yet in the used set. -/
def findRightmostUnused (list : List Header) (used : List Nat) (n : String) : Option Nat :=
  ((List.range list.length).reverse).find? (fun i => nameAt list i == n && !(used.contains i))

/-- Spec reading of the selection loop: walk `h=` in listed order, each time
taking the rightmost not-yet-used occurrence and marking it used; a name with
no remaining occurrence is skipped. -/
def selectSpecAux (list : List Header) : List String → List Nat → List Header
  | [], _ => []
  | nRaw :: rest, used =>
    match findRightmostUnused list used (jsLower nRaw) with
    | none => selectSpecAux list rest used
    | some i => list.getD i dh :: selectSpecAux list rest (i :: used)

/-- The selection rule exactly as the specification words it. -/
def selectRightmostUnusedSpec (list : List Header) (hList : List String) : List Header :=
  selectSpecAux list hList []

/-- The used indices whose header has the given lower-cased name. -/
def usedFor (list : List Header) (used : List Nat) (n : String) : List Nat :=
  used.filter (fun i => nameAt list i == n)

/-- Simulation invariant between the pointer state of `selectAux` and the
used-set state of `selectSpecAux`: for every name, the pointer sits just
below the not-yet-consumed occurrences of that name, and the used indices of
that name are exactly the topmost occurrences, in increasing order. -/
def SelInv (list : List Header) (ptr : String → Int) (used : List Nat) : Prop :=
  ∀ n : String,
    ptr n = ((occIndices list n).length : Int) - 1 - ((usedFor list used n).length : Int)
    ∧ usedFor list used n
        = (occIndices list n).drop
            ((occIndices list n).length - (usedFor list used n).length)

/-- State of the `parseHeaders` loop of dkim.ts: the ordered header list, a
flag for `current !== null`, the pushed raw blocks, and the block being
built.  A continuation line mutates `current`, which is always the most
recently pushed header. -/
structure PHState where
  list : List Header
  cur : Bool
  blocks : List String
  block : String

/-- `current.value += s` of dkim.ts: `current` aliases the last pushed
header. -/
def appendToLastValue (l : List Header) (s : String) : List Header :=
  match l with
  | [] => []
  | [h] => [⟨h.name, h.value ++ s⟩]
  | h :: rest => h :: appendToLastValue rest s

/-- The line loop of `parseHeaders` (dkim.ts): continuation lines append
`line.trim()` to the current value and `"\r\n" + line` to the block; a blank
line stops the scan; a line without a colon is skipped (after the pending
block was pushed); otherwise a new header is pushed. -/
def phGo : List String → PHState → PHState
  | [], st => st
  | line :: rest, st =>
    if startsWithL line " " || startsWithL line "\t" then
      phGo rest { st with
        list := if st.cur then appendToLastValue st.list (jsTrim line) else st.list,
        block := st.block ++ "\r\n" ++ line }
    else if jsTrim line == "" then st
    else
      let blocks1 := if st.cur then st.blocks ++ [st.block] else st.blocks
      match line.data.findIdx? (· == ':') with
      | none => phGo rest { st with blocks := blocks1 }
      | some i =>
        phGo rest { list := st.list ++ [⟨takeN line i, jsTrim (dropN line (i + 1))⟩],
                    cur := true, blocks := blocks1, block := line }

/-- `parseHeaders(raw)` of dkim.ts: the ordered `{name, value}` list together
with `rawDkim`, the first raw block whose lower-cased text starts with
`dkim-signature:` (empty string when there is none). -/
def parseHeaders (raw : String) : List Header × String :=
  let st := phGo (splitLinesAny raw) ⟨[], false, [], ""⟩
  let blocks := if st.block == "" then st.blocks else st.blocks ++ [st.block]
  (st.list,
   (blocks.find? (fun b => startsWithL (jsLower b) "dkim-signature:")).getD "")

/-- `getHeaderValue(list, name)` of dkim.ts: scan from the end of the list
for a case-insensitive name match. -/
def getHeaderValue (list : List Header) (name : String) : Option String :=
  (list.reverse.find? (fun h => jsLower h.name == jsLower name)).map (fun h => h.value)

/-- The `subject` computed by `verifyHeadersOnly` (dkim.ts line 24): the
headers text is trimmed (the preceding fold-keeping replace is the identity),
parsed, and an empty subject collapses to `undefined` via `|| undefined`. -/
def subjectOf (headersText : String) : Option String :=
  match getHeaderValue (parseHeaders (jsTrim headersText)).1 "subject" with
  | some v => if v == "" then none else some v
  | none => none

/-- Tag-map lookup after `Object.fromEntries`: the last pair for a key
wins; a missing key is `none`. -/
def tagGet (pairs : List (String × String)) (k : String) : Option String :=
  (pairs.reverse.find? (fun p => p.1 == k)).map Prod.snd

/-- One `k=v` piece of a DKIM-Signature value: split at the first `=`,
lower-casing and trimming the tag name, trimming the value. -/
def kvEntry (kv : String) : String × String :=
  match kv.data.findIdx? (· == '=') with
  | none => (jsLower kv, "")
  | some i => (jsLower (jsTrim (takeN kv i)), jsTrim (dropN kv (i + 1)))

/-- The tag pairs of `parseDkimSignature` (dkim.ts lines 144-157): take the
text after the first colon, split on `;`, trim, drop empties, split each
piece at its first `=`. -/
def tagPairs (raw : String) : List (String × String) :=
  let paramsStr :=
    match raw.data.findIdx? (· == ':') with
    | some i => dropN raw (i + 1)
    | none => raw
  (((splitOnChar ';' paramsStr).map jsTrim).filter (fun p => !(p == ""))).map kvEntry

/-- JS `x || d` for an optional string: a missing or empty value falls back
to the default. -/
def orDflt (o : Option String) (d : String) : String :=
  match o with
  | some v => if v == "" then d else v
  | none => d

/-- JS `s.replace(/\s+/g, "")`. -/
def removeWS (s : String) : String := ⟨s.data.filter (fun c => !c.isWhitespace)⟩

/-- `a` of `parseDkimSignature`: `tags["a"] || "rsa-sha256"`. -/
def dkimTagA (raw : String) : String := orDflt (tagGet (tagPairs raw) "a") "rsa-sha256"

/-- `d` of `parseDkimSignature` (empty string when the tag is missing). -/
def dkimTagD (raw : String) : String := (tagGet (tagPairs raw) "d").getD ""

/-- `s` of `parseDkimSignature` (empty string when the tag is missing). -/
def dkimTagS (raw : String) : String := (tagGet (tagPairs raw) "s").getD ""

/-- `h` of `parseDkimSignature`: `(tags["h"] || "")` split on `:`, trimmed,
lower-cased, empties dropped. -/
def dkimHList (raw : String) : List String :=
  ((splitOnChar ':' ((tagGet (tagPairs raw) "h").getD "")).map
    (fun x => jsLower (jsTrim x))).filter (fun x => !(x == ""))

/-- `b` of `parseDkimSignature`: whitespace stripped from `tags["b"] || ""`. -/
def dkimTagB (raw : String) : String := removeWS ((tagGet (tagPairs raw) "b").getD "")

/-- `c` of `parseDkimSignature`: `tags["c"] || "relaxed/relaxed"`. -/
def dkimTagC (raw : String) : String := orDflt (tagGet (tagPairs raw) "c") "relaxed/relaxed"

/-- The parsed DKIM-Signature tags of dkim.ts. -/
structure DkimSig where
  a : String
  d : String
  s : String
  h : List String
  b : String
  c : String
deriving DecidableEq, Repr

/-- `parseDkimSignature(raw)` of dkim.ts: `null` for an empty input, an input
not starting (case-insensitively) with `dkim-signature:`, or when `d`, `s`, a
non-empty `h` list, or `b` is missing after tag splitting. -/
def parseDkimSignature (raw : String) : Option DkimSig :=
  if raw == "" then none
  else if !(startsWithL (jsLower raw) "dkim-signature:") then none
  else if dkimTagD raw == "" || dkimTagS raw == "" || (dkimHList raw).isEmpty
      || dkimTagB raw == "" then none
  else some ⟨dkimTagA raw, dkimTagD raw, dkimTagS raw, dkimHList raw, dkimTagB raw, dkimTagC raw⟩

/-- The algorithm gate of `verifyHeadersOnly` (dkim.ts line 23): the flow
proceeds exactly when `dkim.a.toLowerCase() === "rsa-sha256"`. -/
def algorithmGate (sig : DkimSig) : Bool := jsLower sig.a == "rsa-sha256"

/-- `relaxedHeader` of dkim.ts on a `{name, value}` record. -/
def relaxedHeader (h : Header) : String :=
  jsLower h.name ++ ":" ++ jsTrim (collapseWS h.value)

/-- `relaxedHeader` of dkim.ts on a raw string (assumed `name: value`); with
no colon, JS `slice(0, -1)` keeps all but the last character as the name and
`slice(0)` keeps the whole string as the value. -/
def relaxedHeaderStr (s : String) : String :=
  match s.data.findIdx? (· == ':') with
  | some i => jsLower (takeN s i) ++ ":" ++ jsTrim (collapseWS (dropN s (i + 1)))
  | none => jsLower (takeN s (s.data.length - 1)) ++ ":" ++ jsTrim (collapseWS s)

/-- Dispatch of the overloaded `relaxedHeader` on records and strings. -/
def relaxedHeaderE : Header ⊕ String → String
  | .inl h => relaxedHeader h
  | .inr s => relaxedHeaderStr s

/-- Scanner for JS `replace(/\bb=([^;]+)(;?)/i, "b=$2")`: first `b=` (either
case) at a word boundary followed by at least one non-`;` character; the
value is dropped, the tag name, `=`, and a following `;` are kept. -/
def blankBGo (prevW : Bool) : List Char → List Char
  | [] => []
  | c :: rest =>
    if (c == 'b' || c == 'B') && !prevW then
      match rest with
      | '=' :: d :: r2 =>
        if d == ';' then c :: blankBGo (isWordChar c) rest
        else 'b' :: '=' :: (d :: r2).dropWhile (fun x => !(x == ';'))
      | _ => c :: blankBGo (isWordChar c) rest
    else c :: blankBGo (isWordChar c) rest

/-- JS `s.replace(/\bb=([^;]+)(;?)/i, "b=$2")` of `withEmptyB`. -/
def blankB (s : String) : String := ⟨blankBGo false s.data⟩

/-- `withEmptyB(rawDkim)` of dkim.ts: when the input starts with
`dkim-signature:` (case-insensitively), take the value after the first colon,
unfold the whitespace folds, blank the `b=` value, and return a record with
the trimmed value; otherwise return the raw string unchanged. -/
def withEmptyB (rawDkim : String) : Header ⊕ String :=
  if startsWithL (jsLower rawDkim) "dkim-signature:" then
    let hv :=
      match rawDkim.data.findIdx? (· == ':') with
      | some i => dropN rawDkim (i + 1)
      | none => rawDkim
    .inl ⟨"dkim-signature", jsTrim (blankB (unfoldWS hv))⟩
  else .inr rawDkim

/-- `selected.map(relaxedHeader).join("\r\n")` of `verifyHeadersOnly`. -/
def joinCRLF (l : List String) : String := String.intercalate "\r\n" l

/-- The canonicalized signing input of `verifyHeadersOnly` (dkim.ts lines
27-30): the selected headers in relaxed form joined by CRLF, one CRLF, and
the `b=`-blanked DKIM-Signature header in relaxed form. -/
def signedData (list : List Header) (hList : List String) (rawDkim : String) : String :=
  joinCRLF ((selectSignedHeaders list hList).map relaxedHeader) ++ "\r\n"
    ++ relaxedHeaderE (withEmptyB rawDkim)

/-- Scanner for `flat.match(/\bp=([^;\s]+)/)` of `fetchDkimPublicKey`: the
capture group of the first `p=` at a word boundary followed by at least one
character that is neither `;` nor whitespace. -/
def findPTagGo (prevW : Bool) : List Char → Option (List Char)
  | [] => none
  | c :: rest =>
    if c == 'p' && !prevW then
      match rest with
      | '=' :: d :: r2 =>
        if d == ';' || d.isWhitespace then findPTagGo (isWordChar c) rest
        else some ((d :: r2).takeWhile (fun x => !(x == ';' || x.isWhitespace)))
      | _ => findPTagGo (isWordChar c) rest
    else findPTagGo (isWordChar c) rest

/-- The `p=` capture of `fetchDkimPublicKey`, if any. -/
def findPTag (s : String) : Option String := (findPTagGo false s.data).map (fun l => (⟨l⟩ : String))

/-- Chunks for JS `base64.match(/.{1,64}/g) || []` (the inputs here contain
no newline, so the match is a plain split into runs of at most 64). -/
def chunksGo : Nat → List Char → List String
  | _, [] => []
  | 0, _ => []
  | fuel + 1, l => (⟨l.take 64⟩ : String) :: chunksGo fuel (l.drop 64)

/-- `wrapPem(base64)` of dkim.ts: 64-character lines between PEM markers. -/
def wrapPem (base64 : String) : String :=
  "-----BEGIN PUBLIC KEY-----\n" ++ String.intercalate "\n" (chunksGo base64.data.length base64.data)
    ++ "\n-----END PUBLIC KEY-----\n"

/-- `records.map(parts => parts.join("")).join("")` of `fetchDkimPublicKey`. -/
def flattenTxt (records : List (List String)) : String := String.join (records.map String.join)

/-- The pure core of `fetchDkimPublicKey(selector, domain)` (dkim.ts lines
223-236), as a function of the DNS answer: `none` models the catch branch of
a failed `resolveTxt` and the missing-`p=` branch; any `p=` value is wrapped
into a PEM without base64 validation. -/
def fetchDkimPublicKey (txt : Option (List (List String))) : Option String :=
  match txt with
  | none => none
  | some records =>
    match findPTag (flattenTxt records) with
    | none => none
    | some p => some (wrapPem p)

/-- The caller-visible key step of `verifyHeadersOnly` (dkim.ts lines 33-35):
a `null` key becomes the `dkim public key not found for <name>` failure
reason, otherwise the PEM is used. -/
def keyStepOutcome (selector domain : String) (txt : Option (List (List String))) :
    String ⊕ String :=
  match fetchDkimPublicKey txt with
  | none => .inl ("dkim public key not found for " ++ selector ++ "._domainkey." ++ domain)
  | some pem => .inr pem

end Dkim

namespace Route

/-- The `Session` record of the session store (`services/store/session`,
bundled after the document separator in `services/store/zkUsers.ts`):
`{ id, domain, nonce, createdAt }` with `createdAt` in milliseconds. -/
structure Session where
  id : String
  domain : String
  nonce : String
  createdAt : Nat
deriving DecidableEq, Repr

/-- `TTL_MS` of the session store: 30 minutes. -/
def TTL_MS : Nat := 30 * 60 * 1000

/-- `createSession(domain)` of the session store.  The random UUID, the
random hex nonce, and `Date.now()` are effects outside the pure model and
enter as explicit inputs; the stored claimed domain is
`domain.toLowerCase()`. -/
def createSession (domain : String) (sid nonce : String) (now : Nat) : Session :=
  ⟨sid, jsLower domain, nonce, now⟩

/-- The pure core of `getSession(id)`: sessions whose age reaches `TTL_MS`
are pruned, then the store is searched by id.  The `SESSIONS` map is
modelled as a list keyed by the `id` fields; the disk-reload fallback
re-reads the same persisted sessions and is I/O outside the model. -/
def getSession (sessions : List Session) (now : Nat) (sid : String) : Option Session :=
  (sessions.filter (fun s => now - s.createdAt < TTL_MS)).find? (fun s => s.id == sid)

/-- The `VerifyResult` consumed by the route (dkim.ts): optional fields model
the `undefined` cases. -/
structure VerifyResultM where
  ok : Bool
  domain : Option String
  subject : Option String
  signedHeaders : Option (List String)
  reason : Option String
deriving DecidableEq, Repr

/-- Outcome of the binding checks of the verification POST route: either a
JSON error with its reason string, or success with the bound domain. -/
inductive BindResult where
  | err (reason : String)
  | ok (domain : String)
deriving DecidableEq, Repr

/-- The binding checks of the verification POST route (headers-only branch,
lines 44-62): DKIM outcome, exact domain equality, nonce containment in the
lower-cased subject, and `subject` membership in the lower-cased signed
header list, in that order (the final keccak256 hash is out of scope). -/
def bindingCheck (session : Session) (v : VerifyResultM) : BindResult :=
  if !v.ok || (v.domain.getD "") == "" then .err (Dkim.orDflt v.reason "dkim failed")
  else
    let domain := jsLower (v.domain.getD "")
    if domain ≠ session.domain then .err "domain mismatch"
    else
      let subject := jsLower (v.subject.getD "")
      if !(jsIncludes subject (jsLower session.nonce)) then .err "nonce not found in subject"
      else
        let signed := (v.signedHeaders.getD []).map jsLower
        if !(signed.contains "subject") then .err "subject not signed by dkim"
        else .ok domain

end Route

namespace EmailJs

/-- A parsed header of the email parser script: `{ name, value, raw, index }`. -/
structure RawHeader where
  name : String
  value : String
  raw : String
  index : Nat
deriving DecidableEq, Repr

/-- The continuation branch of the script's `parseHeaders`: `current` (the
last pushed header) gets `"\r\n" + line` appended to `raw` and
`" " + line.trim()` appended to `value`. -/
def appendCont (l : List RawHeader) (line : String) : List RawHeader :=
  match l with
  | [] => []
  | [h] => [⟨h.name, h.value ++ " " ++ jsTrim line, h.raw ++ "\r\n" ++ line, h.index⟩]
  | h :: rest => h :: appendCont rest line

/-- The line loop of the script's `parseHeaders`: empty lines are skipped, a
continuation extends the last header (ignored if there is none), otherwise a
header is pushed with `raw = line + "\r\n"` and `index` its position. -/
def epGo : List String → List RawHeader → List RawHeader
  | [], hs => hs
  | line :: rest, hs =>
    if line == "" then epGo rest hs
    else if startsWithL line " " || startsWithL line "\t" then
      epGo rest (if hs.isEmpty then hs else appendCont hs line)
    else
      match line.data.findIdx? (· == ':') with
      | none => epGo rest (hs ++ [⟨"", line, line ++ "\r\n", hs.length⟩])
      | some i =>
        epGo rest (hs ++ [⟨takeN line i, jsTrim (dropN line (i + 1)), line ++ "\r\n", hs.length⟩])

/-- `parseHeaders(headersRaw)` of the email parser script (input split on
CRLF). -/
def parseHeaders (headersRaw : String) : List RawHeader :=
  epGo (splitCRLF headersRaw) []

/-- The tag fields of a parsed DKIM-Signature that `chooseDKIMSignature`
reads (`tags.d` and `tags.a`); `none` models an absent tag. -/
structure PDkim where
  d : Option String
  a : Option String
deriving DecidableEq, Repr

/-- JS truthiness of an optional string tag. -/
def truthyS (o : Option String) : Bool := !((o.getD "") == "")

/-- The `supported` list of `chooseDKIMSignature`. -/
def supportedAlgs : List String := ["rsa-sha256", "ed25519-sha256"]

/-- `p.tags.d && p.tags.d.toLowerCase() === claimedDomain.toLowerCase()`. -/
def domainMatches (claimed : String) (p : PDkim) : Bool :=
  truthyS p.d && (jsLower (p.d.getD "") == jsLower claimed)

/-- `p.tags.a && supported.includes(p.tags.a.toLowerCase())`. -/
def algSupported (p : PDkim) : Bool :=
  truthyS p.a && supportedAlgs.contains (jsLower (p.a.getD ""))

/-- `chooseDKIMSignature(parsedDKIMs, claimedDomain)` of the script: first
signature matching the claimed domain, else first with a supported
algorithm, else the first signature. -/
def chooseDKIMSignature (parsedDKIMs : List PDkim) (claimedDomain : Option String) :
    Option PDkim :=
  if parsedDKIMs.isEmpty then none
  else
    let byDomain :=
      match claimedDomain with
      | some c => if c == "" then none else parsedDKIMs.find? (domainMatches c)
      | none => none
    match byDomain with
    | some p => some p
    | none =>
      match parsedDKIMs.find? algSupported with
      | some p => some p
      | none => parsedDKIMs.head?

/-- The DKIM signature the script's flow actually uses
(`parseEmailRawBuffer` line 373): always the first parsed one. -/
def chosenDKIMOfFlow (parsedDKIMs : List PDkim) : Option PDkim := parsedDKIMs.head?

end EmailJs

namespace Dkim

theorem mem_occIndices {list : List Header} {n : String} {i : Nat} :
    i ∈ occIndices list n ↔ i < list.length ∧ nameAt list i = n := by
  simp [occIndices, List.mem_filter, List.mem_range]

theorem occIndices_pairwise (list : List Header) (n : String) :
    List.Pairwise (· < ·) (occIndices list n) :=
  List.Pairwise.filter _ (List.pairwise_lt_range _)

theorem occIndices_nodup (list : List Header) (n : String) : (occIndices list n).Nodup :=
  (occIndices_pairwise list n).imp Nat.ne_of_lt

theorem findRev_some (N : Nat) (p : Nat → Bool) (j : Nat) (hj : j < N) (hpj : p j = true)
    (hmax : ∀ i, j < i → i < N → p i = false) :
    ((List.range N).reverse).find? p = some j := by
  induction N with
  | zero => omega
  | succ N ih =>
    rw [List.range_succ, List.reverse_append]
    by_cases hN : j = N
    · subst hN
      simp [List.find?_cons, hpj]
    · have hjN : j < N := by omega
      have hpN : p N = false := hmax N hjN (Nat.lt_succ_self N)
      simpa [List.find?_cons, hpN] using ih hjN (fun i hji hiN => hmax i hji (by omega))

theorem findRev_none (N : Nat) (p : Nat → Bool) (h : ∀ i, i < N → p i = false) :
    ((List.range N).reverse).find? p = none := by
  rw [List.find?_eq_none]
  intro x hx
  rw [List.mem_reverse, List.mem_range] at hx
  simp [h x hx]

theorem findRightmostUnused_of_no_occurrence (list : List Header) (used : List Nat)
    (n : String) (h : occIndices list n = []) :
    findRightmostUnused list used n = none := by
  apply findRev_none
  intro i hi
  by_cases hname : nameAt list i = n
  · exact absurd (h ▸ mem_occIndices.mpr ⟨hi, hname⟩) (List.not_mem_nil i)
  · simp [hname]

theorem findRightmostUnused_of_exhausted (list : List Header) (used : List Nat) (n : String)
    (hstruct : usedFor list used n
      = (occIndices list n).drop
          ((occIndices list n).length - (usedFor list used n).length))
    (hall : (occIndices list n).length ≤ (usedFor list used n).length) :
    findRightmostUnused list used n = none := by
  apply findRev_none
  intro i hi
  by_cases hname : nameAt list i = n
  · have hmem : i ∈ occIndices list n := mem_occIndices.mpr ⟨hi, hname⟩
    rw [Nat.sub_eq_zero_of_le hall, List.drop_zero] at hstruct
    have hiu : i ∈ used := (List.mem_filter.mp (hstruct ▸ hmem)).1
    simp [hname, hiu]
  · simp [hname]

end Dkim

namespace Dkim

theorem findRightmostUnused_of_active (list : List Header) (used : List Nat) (n : String)
    (k : Nat) (hk : k = (usedFor list used n).length)
    (hstruct : usedFor list used n
      = (occIndices list n).drop ((occIndices list n).length - k))
    (hlt : k < (occIndices list n).length) :
    findRightmostUnused list used n
      = some ((occIndices list n).getD ((occIndices list n).length - 1 - k) 0) := by
  have hi0 : (occIndices list n).length - 1 - k < (occIndices list n).length := by omega
  have hgetD : (occIndices list n).getD ((occIndices list n).length - 1 - k) 0
      = (occIndices list n)[(occIndices list n).length - 1 - k] :=
    List.getD_eq_getElem (occIndices list n) 0 hi0
  rw [hgetD]
  have hmem : (occIndices list n)[(occIndices list n).length - 1 - k] ∈ occIndices list n :=
    List.getElem_mem hi0
  obtain ⟨hjlt, hjname⟩ := mem_occIndices.mp hmem
  apply findRev_some _ _ _ hjlt
  · have hnotused : (occIndices list n)[(occIndices list n).length - 1 - k] ∉ used := by
      intro hinu
      have hinf : (occIndices list n)[(occIndices list n).length - 1 - k]
          ∈ usedFor list used n := List.mem_filter.mpr ⟨hinu, by simp [hjname]⟩
      rw [hstruct] at hinf
      obtain ⟨q, hq, hqe⟩ := List.mem_iff_getElem.mp hinf
      rw [List.length_drop] at hq
      rw [List.getElem_drop] at hqe
      have := (occIndices_nodup list n).getElem_inj_iff.mp hqe
      omega
    simp [hjname, hnotused]
  · intro i hji hiN
    by_cases hname : nameAt list i = n
    · have himem : i ∈ occIndices list n := mem_occIndices.mpr ⟨hiN, hname⟩
      obtain ⟨q, hq, hqe⟩ := List.mem_iff_getElem.mp himem
      have hmono := List.pairwise_iff_getElem.mp (occIndices_pairwise list n)
      have hqgt : (occIndices list n).length - 1 - k < q := by
        by_contra hle
        push_neg at hle
        rcases Nat.lt_or_eq_of_le hle with hlt2 | heq
        · have := hmono q ((occIndices list n).length - 1 - k) hq hi0 hlt2
          omega
        · subst heq
          omega
      have hinf : i ∈ usedFor list used n := by
        rw [hstruct, List.mem_iff_getElem]
        refine ⟨q - ((occIndices list n).length - k), by rw [List.length_drop]; omega, ?_⟩
        rw [List.getElem_drop]
        have harith : (occIndices list n).length - k + (q - ((occIndices list n).length - k))
            = q := by omega
        simp only [harith]
        exact hqe
      have hiu : i ∈ used := (List.mem_filter.mp hinf).1
      simp [hname, hiu]
    · simp [hname]

theorem SelInv_step (list : List Header) (ptr : String → Int) (used : List Nat) (n : String)
    (hInv : SelInv list ptr used)
    (hlt : (usedFor list used n).length < (occIndices list n).length)
    (j : Nat)
    (hj : j = (occIndices list n).getD
        ((occIndices list n).length - 1 - (usedFor list used n).length) 0) :
    SelInv list (fun m => if m = n then ptr n - 1 else ptr m) (j :: used) := by
  obtain ⟨hptr, hstruct⟩ := hInv n
  have hi0 : (occIndices list n).length - 1 - (usedFor list used n).length
      < (occIndices list n).length := by omega
  have hjget : j = (occIndices list n)[(occIndices list n).length - 1
      - (usedFor list used n).length] := by
    rw [hj]
    exact List.getD_eq_getElem (occIndices list n) 0 hi0
  have hjname : nameAt list j = n := by
    rw [hjget]
    exact (mem_occIndices.mp (List.getElem_mem hi0)).2
  have hconsn : usedFor list (j :: used) n = j :: usedFor list used n := by
    simp [usedFor, List.filter_cons, hjname]
  intro m
  by_cases hm : m = n
  · rw [hm]
    constructor
    · show (if n = n then ptr n - 1 else ptr n) = _
      rw [if_pos rfl, hconsn, List.length_cons, hptr]
      push_cast
      ring
    · rw [hconsn, List.length_cons]
      have he2 : (occIndices list n).length - ((usedFor list used n).length + 1)
          = (occIndices list n).length - 1 - (usedFor list used n).length := by omega
      rw [he2, List.drop_eq_getElem_cons hi0]
      have he3 : (occIndices list n).length - 1 - (usedFor list used n).length + 1
          = (occIndices list n).length - (usedFor list used n).length := by omega
      rw [he3, ← hjget, ← hstruct]
  · have hne : (nameAt list j == m) = false := by
      rw [hjname]
      exact beq_eq_false_iff_ne.mpr (fun h => hm h.symm)
    have hconsm : usedFor list (j :: used) m = usedFor list used m := by
      simp [usedFor, List.filter_cons, hne]
    obtain ⟨h1, h2⟩ := hInv m
    constructor
    · show (if m = n then ptr n - 1 else ptr m) = _
      rw [if_neg hm, hconsm]
      exact h1
    · rw [hconsm]
      exact h2

theorem selectAux_cons (list : List Header) (nRaw : String) (rest : List String)
    (ptr : String → Int) :
    selectAux list (nRaw :: rest) ptr =
      if (occIndices list (jsLower nRaw)).isEmpty then selectAux list rest ptr
      else if ptr (jsLower nRaw) < 0 then selectAux list rest ptr
      else (list.getD ((occIndices list (jsLower nRaw)).getD (ptr (jsLower nRaw)).toNat 0) dh)
        :: selectAux list rest
            (fun m => if m = jsLower nRaw then ptr (jsLower nRaw) - 1 else ptr m) := rfl

theorem selectSpecAux_cons_none (list : List Header) (nRaw : String) (rest : List String)
    (used : List Nat) (h : findRightmostUnused list used (jsLower nRaw) = none) :
    selectSpecAux list (nRaw :: rest) used = selectSpecAux list rest used := by
  show (match findRightmostUnused list used (jsLower nRaw) with
    | none => selectSpecAux list rest used
    | some i => list.getD i dh :: selectSpecAux list rest (i :: used)) = _
  rw [h]

theorem selectSpecAux_cons_some (list : List Header) (nRaw : String) (rest : List String)
    (used : List Nat) (j : Nat)
    (h : findRightmostUnused list used (jsLower nRaw) = some j) :
    selectSpecAux list (nRaw :: rest) used
      = list.getD j dh :: selectSpecAux list rest (j :: used) := by
  show (match findRightmostUnused list used (jsLower nRaw) with
    | none => selectSpecAux list rest used
    | some i => list.getD i dh :: selectSpecAux list rest (i :: used)) = _
  rw [h]

theorem selectAux_eq_specAux (list : List Header) (hList : List String) :
    ∀ (ptr : String → Int) (used : List Nat), SelInv list ptr used →
      selectAux list hList ptr = selectSpecAux list hList used := by
  induction hList with
  | nil => intro ptr used _; rfl
  | cons nRaw rest ih =>
    intro ptr used hInv
    obtain ⟨hptr, hstruct⟩ := hInv (jsLower nRaw)
    rw [selectAux_cons]
    by_cases hemp : (occIndices list (jsLower nRaw)).isEmpty
    · rw [if_pos hemp, selectSpecAux_cons_none list nRaw rest used
        (findRightmostUnused_of_no_occurrence list used _ (List.isEmpty_iff.mp hemp))]
      exact ih ptr used hInv
    · rw [if_neg hemp]
      have hlen : 0 < (occIndices list (jsLower nRaw)).length := by
        cases h : occIndices list (jsLower nRaw) with
        | nil => rw [h] at hemp; simp at hemp
        | cons x xs => simp [h]
      by_cases hneg : ptr (jsLower nRaw) < 0
      · rw [if_pos hneg, selectSpecAux_cons_none list nRaw rest used
          (findRightmostUnused_of_exhausted list used (jsLower nRaw) hstruct (by omega))]
        exact ih ptr used hInv
      · rw [if_neg hneg, selectSpecAux_cons_some list nRaw rest used _
          (findRightmostUnused_of_active list used (jsLower nRaw)
            ((usedFor list used (jsLower nRaw)).length) rfl hstruct (by omega))]
        have htoNat : (ptr (jsLower nRaw)).toNat
            = (occIndices list (jsLower nRaw)).length - 1
              - (usedFor list used (jsLower nRaw)).length := by omega
        rw [htoNat]
        congr 1
        exact ih _ _ (SelInv_step list ptr used (jsLower nRaw) hInv (by omega) _ rfl)

theorem selectSignedHeaders_eq_spec (list : List Header) (hList : List String) :
    selectSignedHeaders list hList = selectRightmostUnusedSpec list hList := by
  apply selectAux_eq_specAux
  intro n
  constructor
  · simp [usedFor]
  · simp [usedFor]

end Dkim

/-- C1: for every ordered header list and every `h=` list, the engine's
`selectSignedHeaders` picks, for each name in listed order, the rightmost
not-yet-used occurrence of that name (case-insensitively), each occurrence at
most once, silently skipping a name with no remaining occurrence; in
particular on headers `[A,B,A]` with `h=[a,a,b]` it selects occurrence 2 of
A, then occurrence 0 of A, then B (and a third `a` is skipped). -/
theorem selectSignedHeaders_rightmost_unused :
    (∀ (list : List Dkim.Header) (hList : List String),
        Dkim.selectSignedHeaders list hList = Dkim.selectRightmostUnusedSpec list hList)
    ∧ Dkim.selectSignedHeaders [⟨"A", "v0"⟩, ⟨"B", "v1"⟩, ⟨"A", "v2"⟩] ["a", "a", "b"]
        = [⟨"A", "v2"⟩, ⟨"A", "v0"⟩, ⟨"B", "v1"⟩]
    ∧ Dkim.selectSignedHeaders [⟨"A", "v0"⟩, ⟨"B", "v1"⟩, ⟨"A", "v2"⟩] ["a", "a", "a", "b"]
        = [⟨"A", "v2"⟩, ⟨"A", "v0"⟩, ⟨"B", "v1"⟩] :=
  ⟨Dkim.selectSignedHeaders_eq_spec, by decide, by decide⟩

theorem strData_append (a b : String) : (a ++ b).data = a.data ++ b.data := by
  cases a
  cases b
  rfl

theorem head?_dropWhile_not (p : Char → Bool) :
    ∀ (l : List Char) (c : Char), (l.dropWhile p).head? = some c → p c = false := by
  intro l
  induction l with
  | nil => intro c h; simp at h
  | cons a t ih =>
    intro c h
    by_cases hpa : p a
    · rw [List.dropWhile_cons_of_pos hpa] at h
      exact ih c h
    · rw [List.dropWhile_cons_of_neg hpa] at h
      simp only [List.head?_cons, Option.some_inj] at h
      rw [← h]
      exact Bool.eq_false_iff.mpr hpa

theorem jsTrim_getLast_not_white (s : String) (c : Char)
    (h : (jsTrim s).data.getLast? = some c) : c.isWhitespace = false := by
  have hd : (jsTrim s).data
      = (((s.data.dropWhile Char.isWhitespace).reverse).dropWhile Char.isWhitespace).reverse :=
    rfl
  rw [hd, List.getLast?_reverse] at h
  exact head?_dropWhile_not _ _ c h

theorem lastChar_colon_trim (pre w : String) (c : Char)
    (hc : (pre ++ ":" ++ jsTrim w).data.getLast? = some c) : c.isWhitespace = false := by
  rw [strData_append, strData_append] at hc
  by_cases hnil : (jsTrim w).data = []
  · rw [hnil, List.append_nil,
      List.getLast?_append_of_ne_nil pre.data
        (show (":" : String).data ≠ [] by decide)] at hc
    have : c = ':' := by
      have hcol : ((":" : String).data).getLast? = some ':' := rfl
      rw [hcol] at hc
      exact (Option.some_inj.mp hc).symm
    rw [this]
    decide
  · rw [List.getLast?_append_of_ne_nil _ hnil] at hc
    exact jsTrim_getLast_not_white w c hc

theorem relaxedHeaderE_getLast (e : Dkim.Header ⊕ String) (c : Char)
    (hc : (Dkim.relaxedHeaderE e).data.getLast? = some c) : c.isWhitespace = false := by
  cases e with
  | inl h => exact lastChar_colon_trim _ _ c hc
  | inr s =>
    simp only [Dkim.relaxedHeaderE, Dkim.relaxedHeaderStr] at hc
    split at hc
    · exact lastChar_colon_trim _ _ c hc
    · exact lastChar_colon_trim _ _ c hc

theorem colon_trim_ne_nil (pre w : String) : (pre ++ ":" ++ jsTrim w).data ≠ [] := by
  rw [strData_append, strData_append]
  intro h
  rcases List.append_eq_nil.mp h with ⟨h1, _⟩
  rcases List.append_eq_nil.mp h1 with ⟨_, h3⟩
  exact absurd h3 (by decide)

theorem relaxedHeaderE_ne_nil (e : Dkim.Header ⊕ String) :
    (Dkim.relaxedHeaderE e).data ≠ [] := by
  cases e with
  | inl h => exact colon_trim_ne_nil _ _
  | inr s =>
    simp only [Dkim.relaxedHeaderE, Dkim.relaxedHeaderStr]
    split
    · exact colon_trim_ne_nil _ _
    · exact colon_trim_ne_nil _ _

theorem signedData_no_trailing_lf (list : List Dkim.Header) (hList : List String)
    (rawDkim : String) :
    (Dkim.signedData list hList rawDkim).data.getLast? ≠ some '\n' := by
  intro h
  have hd : (Dkim.signedData list hList rawDkim).data
      = ((Dkim.joinCRLF ((Dkim.selectSignedHeaders list hList).map Dkim.relaxedHeader)
          ++ "\r\n").data) ++ (Dkim.relaxedHeaderE (Dkim.withEmptyB rawDkim)).data :=
    strData_append _ _
  rw [hd, List.getLast?_append_of_ne_nil _ (relaxedHeaderE_ne_nil _)] at h
  have := relaxedHeaderE_getLast _ _ h
  exact absurd this (by decide)

/-- C2: the canonicalized signing input is the selected headers followed,
last, by one CRLF and the chosen DKIM-Signature header with its `b=` value
blanked, canonicalized in the same (relaxed) header mode; the input never
ends in a CRLF; and on a representative folded header, `withEmptyB` keeps the
tag name, the `=`, and the following semicolon while emptying the value. -/
theorem signedData_final_dkim_line :
    (∀ (list : List Dkim.Header) (hList : List String) (rawDkim : String),
        (Dkim.signedData list hList rawDkim).data
          = (Dkim.joinCRLF ((Dkim.selectSignedHeaders list hList).map
              Dkim.relaxedHeader)).data
            ++ ('\r' :: '\n' :: (Dkim.relaxedHeaderE (Dkim.withEmptyB rawDkim)).data)
        ∧ (Dkim.signedData list hList rawDkim).data.getLast? ≠ some '\n')
    ∧ Dkim.withEmptyB
        "DKIM-Signature: v=1; a=rsa-sha256; d=example.com; s=sel;\r\n\th=from:subject; bh=xyz; b=AbCd123;\r\n\tt=1234"
      = Sum.inl ⟨"dkim-signature",
          "v=1; a=rsa-sha256; d=example.com; s=sel; h=from:subject; bh=xyz; b=; t=1234"⟩ := by
  refine ⟨fun list hList rawDkim => ⟨?_, signedData_no_trailing_lf list hList rawDkim⟩, ?_⟩
  · rw [show Dkim.signedData list hList rawDkim
        = (Dkim.joinCRLF ((Dkim.selectSignedHeaders list hList).map Dkim.relaxedHeader)
            ++ "\r\n") ++ Dkim.relaxedHeaderE (Dkim.withEmptyB rawDkim) from rfl,
      strData_append, strData_append, List.append_assoc]
    rfl
  · rfl

/-- C3: the session store keeps the lower-cased claimed domain
(`createSession` stores `domain.toLowerCase()`), every session an attempt
can find via `getSession` is a `createSession` result, and the verification
route succeeds only when the lower-cased verified signing domain is exactly
string-equal to the lower-cased claimed domain; any other signing domain,
e.g. the subdomain `mail.example.com` against a claim of `example.com`,
fails with the domain-mismatch reason. -/
theorem bindingCheck_domain_exact (claimed sid nonce : String) (now : Nat)
    (v : Route.VerifyResultM) :
    (Route.createSession claimed sid nonce now).domain = jsLower claimed
    ∧ (∀ (store : List Route.Session) (now2 : Nat) (i : String) (s : Route.Session),
        (∀ x ∈ store, ∃ cd ci cn ct, x = Route.createSession cd ci cn ct) →
        Route.getSession store now2 i = some s →
        ∃ cd ci cn ct, s = Route.createSession cd ci cn ct)
    ∧ (∀ d, Route.bindingCheck (Route.createSession claimed sid nonce now) v
          = Route.BindResult.ok d →
        ∃ dv, v.domain = some dv ∧ dv ≠ "" ∧ jsLower dv = jsLower claimed ∧ d = jsLower dv)
    ∧ (∀ dv, v.ok = true → v.domain = some dv → dv ≠ "" →
        jsLower dv ≠ jsLower claimed →
        Route.bindingCheck (Route.createSession claimed sid nonce now) v
          = Route.BindResult.err "domain mismatch") := by
  refine ⟨rfl, ?_, ?_, ?_⟩
  · intro store now2 i s hall hget
    have hmem : s ∈ store.filter (fun x => now2 - x.createdAt < Route.TTL_MS) :=
      List.mem_of_find?_eq_some hget
    exact hall s (List.mem_filter.mp hmem).1
  · intro d h
    simp only [Route.bindingCheck, Route.createSession] at h
    split_ifs at h with h1 h2 h3 h4
    simp only [Route.BindResult.ok.injEq] at h
    simp only [Bool.or_eq_true, Bool.not_eq_true', beq_iff_eq, not_or] at h1
    obtain ⟨hok, hdom⟩ := h1
    cases hv : v.domain with
    | none => rw [hv] at hdom; simp at hdom
    | some dv =>
      rw [hv] at hdom h2 h
      simp only [Option.getD_some] at hdom h2 h
      push_neg at h2
      exact ⟨dv, rfl, hdom, h2, h.symm⟩
  · intro dv hok hd hne hdm
    simp only [Route.bindingCheck, Route.createSession, hd, hok, Option.getD_some]
    rw [if_neg (by simp [hne]), if_pos hdm]

theorem bindingCheck_domain_exact_witness :
    Route.bindingCheck (Route.createSession "example.com" "sid1" "n1" 0)
      ⟨true, some "mail.example.com", some "Verify n1", some ["from", "subject"], none⟩
      = Route.BindResult.err "domain mismatch" :=
  (bindingCheck_domain_exact "example.com" "sid1" "n1" 0 _).2.2.2 "mail.example.com"
    rfl rfl (by decide) (by decide)

/-- C4: against a session created for a claimed domain, when the signature
verified (ok), the domain matches, and the subject contains the session
nonce, a signed-header list without `subject` (compared case-insensitively)
makes the attempt fail with the subject-not-signed reason instead of
succeeding. -/
theorem bindingCheck_subject_not_signed (claimed sid nonce : String) (now : Nat)
    (v : Route.VerifyResultM) (dv : String)
    (hok : v.ok = true) (hd : v.domain = some dv) (hne : dv ≠ "")
    (hdom : jsLower dv = jsLower claimed)
    (hnonce : jsIncludes (jsLower (v.subject.getD "")) (jsLower nonce) = true)
    (hsub : ((v.signedHeaders.getD []).map jsLower).contains "subject" = false) :
    Route.bindingCheck (Route.createSession claimed sid nonce now) v
      = Route.BindResult.err "subject not signed by dkim" := by
  simp only [Route.bindingCheck, Route.createSession, hd, hok, Option.getD_some]
  rw [if_neg (by simp [hne]), if_neg (by simp [hdom]), if_neg (by simp [hnonce]),
    if_pos (show (!(List.map jsLower (v.signedHeaders.getD [])).contains "subject") = true
      by rw [hsub]; decide)]

theorem bindingCheck_subject_not_signed_witness :
    Route.bindingCheck (Route.createSession "Example.COM" "sid2" "abc123" 0)
      ⟨true, some "Example.com", some "Verify ABC123", some ["from", "date"], none⟩
      = Route.BindResult.err "subject not signed by dkim" :=
  bindingCheck_subject_not_signed "Example.COM" "sid2" "abc123" 0 _ "Example.com"
    rfl rfl (by decide) (by decide) (by decide) (by decide)

/-- C5 counterexample: with two DKIM-Signature headers where only the second
matches the claimed domain, the policy function would choose the second, but
the script's flow takes the first parsed signature and dkim.ts's
`parseHeaders` exposes only the first DKIM-Signature block — the engine does
not select by the stated policy. -/
theorem chooseDKIM_not_used_counterexample :
    EmailJs.chooseDKIMSignature
        [⟨some "other.com", some "rsa-sha1"⟩, ⟨some "example.com", some "rsa-sha256"⟩]
        (some "example.com")
      = some ⟨some "example.com", some "rsa-sha256"⟩
    ∧ EmailJs.chosenDKIMOfFlow
        [⟨some "other.com", some "rsa-sha1"⟩, ⟨some "example.com", some "rsa-sha256"⟩]
      = some ⟨some "other.com", some "rsa-sha1"⟩
    ∧ (⟨some "other.com", some "rsa-sha1"⟩ : EmailJs.PDkim)
        ≠ ⟨some "example.com", some "rsa-sha256"⟩
    ∧ (Dkim.parseHeaders
        "DKIM-Signature: a=rsa-sha1; d=other.com; s=s1; h=from; b=AAAA\r\nDKIM-Signature: a=rsa-sha256; d=example.com; s=s2; h=from; b=BBBB").2
      = "DKIM-Signature: a=rsa-sha1; d=other.com; s=s1; h=from; b=AAAA" :=
  ⟨rfl, rfl, by decide, rfl⟩

/-- C5 amended: `chooseDKIMSignature` does implement the stated policy —
first signature whose `d=` equals the claimed domain case-insensitively, else
first with a supported algorithm, else the first parseable one — but it is
never invoked: the flows use the first DKIM-Signature
(`parsedDKIMs[0]`, and the first block found by dkim.ts's `parseHeaders`). -/
theorem chooseDKIM_policy_vs_flow (l : List EmailJs.PDkim) (c : String)
    (hne : l ≠ []) (hc : c ≠ "") :
    ((∃ p ∈ l, EmailJs.domainMatches c p = true) →
      ∃ q, EmailJs.chooseDKIMSignature l (some c) = some q ∧ q ∈ l
        ∧ EmailJs.domainMatches c q = true)
    ∧ ((∀ p ∈ l, EmailJs.domainMatches c p = false) →
        (∃ p ∈ l, EmailJs.algSupported p = true) →
        ∃ q, EmailJs.chooseDKIMSignature l (some c) = some q ∧ q ∈ l
          ∧ EmailJs.algSupported q = true)
    ∧ ((∀ p ∈ l, EmailJs.domainMatches c p = false) →
        (∀ p ∈ l, EmailJs.algSupported p = false) →
        EmailJs.chooseDKIMSignature l (some c) = l.head?)
    ∧ EmailJs.chosenDKIMOfFlow l = l.head? := by
  have hemp : l.isEmpty = false := by
    cases l with
    | nil => exact absurd rfl hne
    | cons a t => rfl
  have hcc : (c == "") = false := beq_eq_false_iff_ne.mpr hc
  refine ⟨?_, ?_, ?_, rfl⟩
  · intro hex
    have hsome : (l.find? (EmailJs.domainMatches c)).isSome := List.find?_isSome.mpr hex
    cases hfind : l.find? (EmailJs.domainMatches c) with
    | none => rw [hfind] at hsome; simp at hsome
    | some q =>
      refine ⟨q, ?_, List.mem_of_find?_eq_some hfind, List.find?_some hfind⟩
      simp only [EmailJs.chooseDKIMSignature, hemp, hcc, hfind]
      rfl
  · intro hnd hex
    have hnone : l.find? (EmailJs.domainMatches c) = none :=
      List.find?_eq_none.mpr (fun x hx => by simp [hnd x hx])
    have hsome : (l.find? EmailJs.algSupported).isSome := List.find?_isSome.mpr hex
    cases hfind : l.find? EmailJs.algSupported with
    | none => rw [hfind] at hsome; simp at hsome
    | some q =>
      refine ⟨q, ?_, List.mem_of_find?_eq_some hfind, List.find?_some hfind⟩
      simp only [EmailJs.chooseDKIMSignature, hemp, hcc, hnone, hfind]
      rfl
  · intro hnd hna
    have hnone : l.find? (EmailJs.domainMatches c) = none :=
      List.find?_eq_none.mpr (fun x hx => by simp [hnd x hx])
    have hnone2 : l.find? EmailJs.algSupported = none :=
      List.find?_eq_none.mpr (fun x hx => by simp [hna x hx])
    simp only [EmailJs.chooseDKIMSignature, hemp, hcc, hnone, hnone2]
    rfl

theorem chooseDKIM_policy_vs_flow_witness :
    ∃ q, EmailJs.chooseDKIMSignature
        [⟨some "other.com", some "rsa-sha1"⟩, ⟨some "example.com", some "rsa-sha256"⟩]
        (some "example.com")
      = some q
      ∧ q ∈ [(⟨some "other.com", some "rsa-sha1"⟩ : EmailJs.PDkim),
          ⟨some "example.com", some "rsa-sha256"⟩]
      ∧ EmailJs.domainMatches "example.com" q = true :=
  (chooseDKIM_policy_vs_flow
      [⟨some "other.com", some "rsa-sha1"⟩, ⟨some "example.com", some "rsa-sha256"⟩]
      "example.com" (by decide) (by decide)).1
    ⟨⟨some "example.com", some "rsa-sha256"⟩, by decide, by decide⟩

/-- C6 counterexample: malformed base64 key material does not yield the
key-not-found outcome — the resolver wraps it into a PEM and the flow
proceeds with it, unlike the no-TXT-record and no-`p=` cases, so the caller
can distinguish that failure mode. -/
theorem fetchKey_malformed_base64_counterexample :
    Dkim.keyStepOutcome "sel1" "example.com" (some [["v=DKIM1; p=@@@not-base64@@@"]])
      = Sum.inr "-----BEGIN PUBLIC KEY-----\n@@@not-base64@@@\n-----END PUBLIC KEY-----\n"
    ∧ Dkim.keyStepOutcome "sel1" "example.com" none
      = Sum.inl "dkim public key not found for sel1._domainkey.example.com"
    ∧ Dkim.keyStepOutcome "sel1" "example.com" (some [["v=DKIM1"]])
      = Sum.inl "dkim public key not found for sel1._domainkey.example.com" :=
  ⟨rfl, rfl, rfl⟩

/-- C6 amended: a failed TXT lookup and TXT records without a `p=` tag yield
the same key-not-found reason string, indistinguishable to the caller;
malformed base64 is not detected at key-resolution time — any `p=` value is
wrapped into a PEM without validation — so that failure mode surfaces later,
distinguishably, in the crypto layer. -/
theorem fetchKey_failure_modes (selector domain : String) :
    Dkim.keyStepOutcome selector domain none
      = Sum.inl ("dkim public key not found for " ++ selector ++ "._domainkey." ++ domain)
    ∧ (∀ recs, Dkim.findPTag (Dkim.flattenTxt recs) = none →
        Dkim.keyStepOutcome selector domain (some recs)
          = Sum.inl ("dkim public key not found for " ++ selector ++ "._domainkey." ++ domain))
    ∧ (∀ recs p, Dkim.findPTag (Dkim.flattenTxt recs) = some p →
        Dkim.keyStepOutcome selector domain (some recs) = Sum.inr (Dkim.wrapPem p)) := by
  refine ⟨rfl, fun recs h => ?_, fun recs p h => ?_⟩
  · simp only [Dkim.keyStepOutcome, Dkim.fetchDkimPublicKey, h]
  · simp only [Dkim.keyStepOutcome, Dkim.fetchDkimPublicKey, h]

theorem fetchKey_failure_modes_witness :
    Dkim.keyStepOutcome "sel1" "example.com" (some [["v=DKIM1"]])
      = Sum.inl ("dkim public key not found for " ++ "sel1" ++ "._domainkey." ++ "example.com") :=
  (fetchKey_failure_modes "sel1" "example.com").2.1 [["v=DKIM1"]] rfl

/-- C7: for a DKIM-Signature header value (anything starting
case-insensitively with `dkim-signature:`), the tag parser yields no usable
tag exactly when, after tag splitting, `d=` is missing or empty, `s=` is
missing or empty, the `h=` list is empty, or `b=` is missing or
whitespace-only; nothing else (unknown tags, unsupported `a=`, missing `c=`)
excludes a signature. -/
theorem parseDkimSignature_requires_tags (raw : String)
    (hstart : startsWithL (jsLower raw) "dkim-signature:" = true) :
    Dkim.parseDkimSignature raw = none ↔
      (Dkim.dkimTagD raw = "" ∨ Dkim.dkimTagS raw = ""
        ∨ Dkim.dkimHList raw = [] ∨ Dkim.dkimTagB raw = "") := by
  have hne : (raw == "") = false := by
    apply beq_eq_false_iff_ne.mpr
    intro h
    subst h
    exact absurd hstart (by decide)
  unfold Dkim.parseDkimSignature
  rw [if_neg (by simp [hne]), if_neg (by simp [hstart])]
  constructor
  · intro h
    by_cases hcond : (Dkim.dkimTagD raw == "" || Dkim.dkimTagS raw == ""
        || (Dkim.dkimHList raw).isEmpty || Dkim.dkimTagB raw == "") = true
    · have hc2 := hcond
      simp only [Bool.or_eq_true, beq_iff_eq, List.isEmpty_iff, or_assoc] at hc2
      exact hc2
    · rw [if_neg hcond] at h
      exact Option.noConfusion h
  · intro h
    have hcond : (Dkim.dkimTagD raw == "" || Dkim.dkimTagS raw == ""
        || (Dkim.dkimHList raw).isEmpty || Dkim.dkimTagB raw == "") = true := by
      simp only [Bool.or_eq_true, beq_iff_eq, List.isEmpty_iff, or_assoc]
      exact h
    rw [if_pos hcond]

theorem parseDkimSignature_requires_tags_witness :
    Dkim.parseDkimSignature "dkim-signature: v=1; d=example.com" = none ↔
      (Dkim.dkimTagD "dkim-signature: v=1; d=example.com" = ""
        ∨ Dkim.dkimTagS "dkim-signature: v=1; d=example.com" = ""
        ∨ Dkim.dkimHList "dkim-signature: v=1; d=example.com" = []
        ∨ Dkim.dkimTagB "dkim-signature: v=1; d=example.com" = "") :=
  parseDkimSignature_requires_tags "dkim-signature: v=1; d=example.com" (by decide)

/-- C9: a DKIM-Signature value without an `a=` tag that still parses (it has
`d=`, `s=`, a non-empty `h=`, and `b=`) gets the default algorithm
`rsa-sha256`, and the headers-only verifier's algorithm gate accepts it
rather than rejecting the signature. -/
theorem parseDkimSignature_default_rsa (raw : String) (sig : Dkim.DkimSig)
    (ha : Dkim.tagGet (Dkim.tagPairs raw) "a" = none)
    (hp : Dkim.parseDkimSignature raw = some sig) :
    sig.a = "rsa-sha256" ∧ Dkim.algorithmGate sig = true := by
  have ha2 : Dkim.dkimTagA raw = "rsa-sha256" := by
    unfold Dkim.dkimTagA
    rw [ha]
    rfl
  unfold Dkim.parseDkimSignature at hp
  split_ifs at hp with h1 h2 h3
  have hs := Option.some_inj.mp hp
  subst hs
  refine ⟨ha2, ?_⟩
  show (jsLower (Dkim.dkimTagA raw) == "rsa-sha256") = true
  rw [ha2]
  decide

theorem parseDkimSignature_default_rsa_witness :
    (⟨"rsa-sha256", "example.com", "sel1", ["from", "subject"], "QUJDRA==",
        "relaxed/relaxed"⟩ : Dkim.DkimSig).a = "rsa-sha256"
    ∧ Dkim.algorithmGate
        ⟨"rsa-sha256", "example.com", "sel1", ["from", "subject"], "QUJDRA==",
          "relaxed/relaxed"⟩ = true :=
  parseDkimSignature_default_rsa
    "dkim-signature: v=1; d=example.com; s=sel1; h=from:subject; b=QUJDRA=="
    ⟨"rsa-sha256", "example.com", "sel1", ["from", "subject"], "QUJDRA==",
      "relaxed/relaxed"⟩ rfl rfl

theorem find_eq_filter_head {α : Type} (p : α → Bool) :
    ∀ l : List α, l.find? p = (l.filter p).head? := by
  intro l
  induction l with
  | nil => rfl
  | cons a t ih =>
    cases hpa : p a with
    | true =>
      rw [List.find?_cons, List.filter_cons, hpa]
      simp
    | false =>
      rw [List.find?_cons, List.filter_cons, hpa]
      exact ih

/-- C10: `getHeaderValue` returns the value of the last occurrence (in
receipt order) of the requested header name; consequently the subject used by
the headers-only verifier comes from the last Subject header of the
message. -/
theorem getHeaderValue_last_occurrence :
    (∀ (list : List Dkim.Header) (name : String),
        Dkim.getHeaderValue list name
          = ((list.filter (fun h => jsLower h.name == jsLower name)).getLast?).map
              (fun h => h.value))
    ∧ Dkim.subjectOf "Subject: first\r\nSubject: second\r\nFrom: x@y" = some "second" := by
  refine ⟨fun list name => ?_, by decide⟩
  unfold Dkim.getHeaderValue
  rw [find_eq_filter_head, List.filter_reverse, List.head?_reverse]

/-- C8: on the folded header `Subject: hello\r\n\tworld`, dkim.ts's
`parseHeaders` appends the trimmed continuation with no space join (value
`helloworld`), while the email parser script joins with a single space
(value `hello world`) as the specification states; dkim.ts's raw block keeps
the original line break and leading whitespace (third conjunct), while the
script's `raw` gains a duplicated CRLF. -/
theorem parseHeaders_continuation_divergence :
    (Dkim.parseHeaders "Subject: hello\r\n\tworld").1 = [⟨"Subject", "helloworld"⟩]
    ∧ EmailJs.parseHeaders "Subject: hello\r\n\tworld"
      = [⟨"Subject", "hello world", "Subject: hello\r\n\r\n\tworld", 0⟩]
    ∧ (Dkim.parseHeaders "DKIM-Signature: v=1;\r\n\tb=QQ==").2
      = "DKIM-Signature: v=1;\r\n\tb=QQ==" :=
  ⟨rfl, rfl, rfl⟩
